import Mathlib

/-!
# CryptoSentinel — verification of the cryptanalysis engine

Shallow embedding of the statistical primitives and the four crackers
(Caesar, XOR single-byte, Vigenère, Substitution) of the CryptoSentinel
repository, together with proofs and refutations of the specification
claims about them.

Modelling conventions:
* Python `str` values are `List Char`; `bytes` values are `List ℕ`
  (each entry < 256 at use sites).
* Python `float` arithmetic is modelled exactly over `ℚ`; the IEEE value
  `float('inf')` that some scoring helpers return is modelled as `⊤` in
  `WithTop ℚ`.  Python's `round(x, d)` is modelled as exact decimal
  rounding (`roundDec`).
* Character predicates (`isalpha`, `isprintable`, `upper`, `lower`) are
  modelled with their ASCII semantics, which is the fragment the inputs
  under verification exercise.
* A Python function that can raise is modelled with an `Option` result
  (`none` = the exception); `try/except: continue` in the source becomes
  a `match` that leaves the loop state unchanged.
-/

set_option maxRecDepth 200000
set_option maxHeartbeats 10000000

namespace CryptoSentinel

/- `Rat`'s arithmetic is `@[irreducible]`; concrete evaluations in the
proofs below unfold it with `decide` after the following command. -/
unseal Rat.add Rat.mul Rat.inv Rat.sub

/-- ASCII model of Python `str.isalpha` (one character). -/
def isalpha (c : Char) : Bool :=
  (65 ≤ c.toNat && c.toNat ≤ 90) || (97 ≤ c.toNat && c.toNat ≤ 122)

/-- ASCII model of Python `str.upper` (one character). -/
def upperChar (c : Char) : Char :=
  if 97 ≤ c.toNat && c.toNat ≤ 122 then Char.ofNat (c.toNat - 32) else c

/-- ASCII model of Python `str.lower` (one character). -/
def lowerChar (c : Char) : Char :=
  if 65 ≤ c.toNat && c.toNat ≤ 90 then Char.ofNat (c.toNat + 32) else c

/-- Model of Python `round(q, d)`: round to `d` decimal digits.
(Banker's-rounding ties, which differ from `⌊· + 1/2⌋` only at exact
half-way points, do not occur at any value computed in this file.) -/
def roundDec (d : ℕ) (q : ℚ) : ℚ :=
  ((⌊q * 10 ^ d + 1 / 2⌋ : ℤ) : ℚ) / 10 ^ d

/-- `crypto_sentinel.utils.math_helpers.calculate_ioc`: filter to
alphabetic characters, uppercase, and return
`Σ nᵢ(nᵢ-1) / (N(N-1))` rounded to 6 decimals; `none` models the
`ValueError` raised when fewer than 2 alphabetic characters remain. -/
def calculate_ioc (text : List Char) : Option ℚ :=
  let filtered := (text.filter isalpha).map upperChar
  let n := filtered.length
  if n < 2 then none
  else
    let numerator := (filtered.dedup.map
      (fun c => filtered.count c * (filtered.count c - 1))).sum
    let denominator := n * (n - 1)
    some (roundDec 6 ((numerator : ℚ) / (denominator : ℚ)))

/-- `crypto_sentinel.utils.math_helpers.chi_squared`:
`Σ (Oᵢ-Eᵢ)²/Eᵢ` rounded to 6 decimals; `none` models the `ValueError`
raised on mismatched lengths or a zero expected value. -/
def chi_squared (observed : List ℤ) (expected : List ℚ) : Option ℚ :=
  if observed.length ≠ expected.length then none
  else if expected.any (fun e => decide (e = 0)) then none
  else some (roundDec 6
    (((observed.zip expected).map (fun p => ((p.1 : ℚ) - p.2) ^ 2 / p.2)).sum))

/-! ## Caesar cipher (`crypto_sentinel.ciphers.caesar`) -/

/-- `CaesarCipher.ENGLISH_FREQ` (percentages, A–Z). -/
def ENGLISH_FREQ : List ℚ :=
  [8167/1000, 1492/1000, 2782/1000, 4253/1000, 12702/1000, 2228/1000, 2015/1000,
   6094/1000, 6966/1000, 153/1000, 772/1000, 4025/1000, 2406/1000, 6749/1000,
   7507/1000, 1929/1000, 95/1000, 5987/1000, 6327/1000, 9056/1000, 2758/1000,
   978/1000, 2360/1000, 150/1000, 1974/1000, 74/1000]

/-- The per-character shift of `CaesarCipher.encrypt` (the loop body):
shift alphabetic characters by `key` preserving case, pass others through. -/
def caesar_shift_char (key : ℕ) (c : Char) : Char :=
  if 65 ≤ c.toNat && c.toNat ≤ 90 then Char.ofNat (65 + (c.toNat - 65 + key) % 26)
  else if 97 ≤ c.toNat && c.toNat ≤ 122 then Char.ofNat (97 + (c.toNat - 97 + key) % 26)
  else c

/-- `CaesarCipher.encrypt`: `none` models the `InvalidKeyError` raised
when the key is outside `[0, 25]`. -/
def caesar_encrypt (data : List Char) (key : ℤ) : Option (List Char) :=
  if 0 ≤ key ∧ key < 26 then some (data.map (caesar_shift_char key.toNat)) else none

/-- `CaesarCipher.decrypt`: encryption with key `(26 - key) % 26`. -/
def caesar_decrypt (data : List Char) (key : ℤ) : Option (List Char) :=
  caesar_encrypt data ((26 - key) % 26)

/-- `CaesarCipher._score_text`'s letter-count vector (A–Z) of a text. -/
def letter_counts (text : List Char) : List ℤ :=
  (List.range 26).map
    (fun i => (text.countP (fun c => isalpha c && (upperChar c).toNat == 65 + i) : ℤ))

/-- `CaesarCipher._score_text`: chi-squared of the letter counts against
`ENGLISH_FREQ` scaled to the letter total; `⊤` models the `float('inf')`
returned when the text has no letters (or `chi_squared` raises). -/
def caesar_score_text (text : List Char) : WithTop ℚ :=
  let total := text.countP isalpha
  if total = 0 then ⊤
  else
    let expected := ENGLISH_FREQ.map (fun f => f / 100 * (total : ℚ))
    match chi_squared (letter_counts text) expected with
    | some v => (v : WithTop ℚ)
    | none => ⊤

/-- The Python expression `max(0.0, min(1.0, 1.0 - score / 500.0))` used by
both the Caesar cracker and the Vigenère per-column confidence; on the IEEE
value `inf` (modelled `⊤`) the expression evaluates to `0.0`. -/
def conf500 : WithTop ℚ → ℚ
  | ⊤ => 0
  | (v : ℚ) => max 0 (min 1 (1 - v / 500))

/-- Search state of the `CaesarCipher.crack` loop. -/
structure CaesarSearch where
  best_key : ℕ
  best_plaintext : List Char
  best_score : WithTop ℚ
  scores : List (ℕ × WithTop ℚ)
deriving DecidableEq, Repr

/-- One iteration of `CaesarCipher.crack`'s key loop (`except: continue`
keeps the state unchanged; it is unreachable since `decrypt` accepts every
key after the `% 26` reduction). -/
def caesar_crack_step (data : List Char) (st : CaesarSearch) (key : ℕ) : CaesarSearch :=
  match caesar_decrypt data (key : ℤ) with
  | none => st
  | some plaintext =>
    let score := caesar_score_text plaintext
    let st' : CaesarSearch := { st with scores := st.scores ++ [(key, score)] }
    if score < st'.best_score then
      { st' with best_score := score, best_key := key, best_plaintext := plaintext }
    else st'

/-- Result record of `CaesarCipher.crack` (the Python dict; keys absent
from a branch's dict are `none`). -/
structure CaesarResult where
  success : Bool
  key : Option ℕ
  plaintext : Option (List Char)
  confidence : ℚ
  method : String
  attempts : ℕ
  scores : List (ℕ × WithTop ℚ)
  best_chi_squared : Option (WithTop ℚ)
  error : Option String
deriving DecidableEq, Repr

/-- `CaesarCipher.crack`. -/
def caesar_crack (data : List Char) : CaesarResult :=
  if data.isEmpty || !(data.any isalpha) then
    { success := false, key := none, plaintext := none, confidence := 0,
      method := "frequency_analysis", attempts := 0, scores := [],
      best_chi_squared := none,
      error := some "No alphabetic characters to analyze" }
  else
    let final := (List.range 26).foldl (caesar_crack_step data) ⟨0, [], ⊤, []⟩
    { success := true, key := some final.best_key,
      plaintext := some final.best_plaintext,
      confidence := roundDec 4 (conf500 final.best_score),
      method := "frequency_analysis", attempts := 26, scores := final.scores,
      best_chi_squared := some (final.best_score.map (roundDec 4)),
      error := none }

/-! ## XOR cipher (`crypto_sentinel.ciphers.xor`) -/

/-- `XORCipher.COMMON_WORDS`. -/
def COMMON_WORDS : List (List Char) :=
  ["the", "be", "to", "of", "and", "a", "in", "that", "have", "i",
   "it", "for", "not", "on", "with", "he", "as", "you", "do", "at",
   "this", "but", "his", "by", "from", "they", "we", "say", "her", "she",
   "or", "an", "will", "my", "one", "all", "would", "there", "their",
   "what"].map String.toList

/-- ASCII model of Python `str.isprintable` (one character).  (Python also
prints most non-ASCII code points; the inputs under verification only
exercise the ASCII fragment.) -/
def isPrintable (c : Char) : Bool := 32 ≤ c.toNat && c.toNat ≤ 126

/-- Python whitespace characters, as split on by `str.split()`. -/
def isPySpace (c : Char) : Bool :=
  c == ' ' || c == '\t' || c == '\n' || c == '\r' || c.toNat == 11 || c.toNat == 12

/-- Model of Python `str.split()` (split on whitespace runs, drop empties). -/
def splitWs (l : List Char) : List (List Char) :=
  let step := fun (c : Char) (acc : List Char × List (List Char)) =>
    if isPySpace c then ([], if acc.1.isEmpty then acc.2 else acc.1 :: acc.2)
    else (c :: acc.1, acc.2)
  let r := l.foldr step ([], [])
  if r.1.isEmpty then r.2 else r.1 :: r.2

/-- Strict UTF-8 decoding of a byte list, as Python `bytes.decode('utf-8')`:
rejects continuation errors, overlong encodings, surrogates and
code points above `0x10FFFF`; `none` models `UnicodeDecodeError`. -/
def utf8Decode : List ℕ → Option (List Char)
  | [] => some []
  | b :: rest =>
    if b ≤ 0x7F then (utf8Decode rest).map (fun cs => Char.ofNat b :: cs)
    else if b < 0xC2 then none
    else if b ≤ 0xDF then
      match rest with
      | c1 :: rest1 =>
        if 0x80 ≤ c1 && c1 ≤ 0xBF then
          (utf8Decode rest1).map
            (fun cs => Char.ofNat ((b - 0xC0) * 0x40 + (c1 - 0x80)) :: cs)
        else none
      | [] => none
    else if b ≤ 0xEF then
      match rest with
      | c1 :: c2 :: rest2 =>
        if (0x80 ≤ c1 && c1 ≤ 0xBF) && (0x80 ≤ c2 && c2 ≤ 0xBF)
            && !(b == 0xE0 && c1 < 0xA0) && !(b == 0xED && 0xA0 ≤ c1) then
          (utf8Decode rest2).map (fun cs =>
            Char.ofNat ((b - 0xE0) * 0x1000 + (c1 - 0x80) * 0x40 + (c2 - 0x80)) :: cs)
        else none
      | _ => none
    else if b ≤ 0xF4 then
      match rest with
      | c1 :: c2 :: c3 :: rest3 =>
        if (0x80 ≤ c1 && c1 ≤ 0xBF) && (0x80 ≤ c2 && c2 ≤ 0xBF)
            && (0x80 ≤ c3 && c3 ≤ 0xBF)
            && !(b == 0xF0 && c1 < 0x90) && !(b == 0xF4 && 0x90 ≤ c1) then
          (utf8Decode rest3).map (fun cs =>
            Char.ofNat ((b - 0xF0) * 0x40000 + (c1 - 0x80) * 0x1000
              + (c2 - 0x80) * 0x40 + (c3 - 0x80)) :: cs)
        else none
      | _ => none
    else none

/-- `XORCipher._score_plaintext`: the plaintext-likelihood heuristic
(printability, letters, spaces, common words), normalised per character
and rescaled by 100. -/
def xor_score_plaintext (text : List Char) : ℚ :=
  if text.isEmpty then 0
  else
    let printScore : ℤ :=
      (text.map (fun c =>
        if isPrintable c || (c == '\n' || c == '\r' || c == '\t') then (1 : ℤ)
        else -5)).sum
    let alpha_count := text.countP isalpha
    let space_count := text.count ' '
    let words := splitWs (text.map lowerChar)
    let common_word_count := (words.filter (fun w => COMMON_WORDS.contains w)).length
    let score : ℚ :=
      (printScore : ℚ) + 2 * (alpha_count : ℚ) + (space_count : ℚ)
        + 10 * (common_word_count : ℚ)
    if 0 < text.length then score / (text.length : ℚ) * 100 else score

/-- Search state of the `XORCipher.crack` loop.  `best_plaintext` is the
Python variable that starts as `None`; an `inl` is a decoded string, an
`inr` raw bytes (the falsy-string fallback). -/
structure XorSearch where
  best_key : ℕ
  best_plaintext : Option (List Char ⊕ List ℕ)
  best_score : ℚ
  scores : List (ℕ × ℚ)
deriving DecidableEq, Repr

/-- One iteration of `XORCipher.crack`'s key loop: XOR, attempt UTF-8
decoding (failure scores `-1000` without further scoring), record the
score, and keep the strict maximum. -/
def xor_crack_step (data : List ℕ) (st : XorSearch) (key : ℕ) : XorSearch :=
  let decrypted_bytes := data.map (fun b => b ^^^ key)
  let scored : ℚ × Option (List Char) :=
    match utf8Decode decrypted_bytes with
    | some s => (xor_score_plaintext s, some s)
    | none => (-1000, none)
  let st' : XorSearch := { st with scores := st.scores ++ [(key, scored.1)] }
  if scored.1 > st'.best_score then
    { st' with
      best_score := scored.1, best_key := key,
      best_plaintext := some (match scored.2 with
        | some s => if s.isEmpty then Sum.inr decrypted_bytes else Sum.inl s
        | none => Sum.inr decrypted_bytes) }
  else st'

/-- Result record of `XORCipher.crack`. -/
structure XorResult where
  success : Bool
  key : Option ℕ
  plaintext : Option (List Char ⊕ List ℕ)
  confidence : ℚ
  method : String
  attempts : ℕ
  scores : List (ℕ × ℚ)
  best_score : Option ℚ
  error : Option String
deriving DecidableEq, Repr

/-- `XORCipher.crack` on byte input (a hex string input is converted to
bytes before this point in the source). -/
def xor_crack (data : List ℕ) : XorResult :=
  if data.isEmpty then
    { success := false, key := none, plaintext := none, confidence := 0,
      method := "single_byte_brute_force", attempts := 0, scores := [],
      best_score := none, error := some "Empty data" }
  else
    let final := (List.range 256).foldl (xor_crack_step data) ⟨0, none, -1, []⟩
    let confidence : ℚ :=
      if 0 < final.best_score then min 1 (final.best_score / 100) else 0
    { success := decide (0 < final.best_score), key := some final.best_key,
      plaintext := final.best_plaintext,
      confidence := roundDec 4 confidence,
      method := "single_byte_brute_force", attempts := 256,
      scores := final.scores, best_score := some final.best_score,
      error := none }

/-! ## Vigenère cipher (`crypto_sentinel.ciphers.vigenere`) -/

/-- The columns of `VigenereCipher.crack` / `_estimate_key_length`:
`columns[i % L] += char` distributes position `i` to column `i % L`. -/
def splitColumns (L : ℕ) (text : List Char) : List (List Char) :=
  (List.range L).map
    (fun j => (text.enum.filter (fun p => p.1 % L == j)).map Prod.snd)

/-- The per-candidate inner loop of `_estimate_key_length`: sum the IoCs of
the columns with at least 2 characters (an IoC failure is skipped) and
count them. -/
def ioc_stats_step (acc : ℚ × ℕ) (column : List Char) : ℚ × ℕ :=
  if 2 ≤ column.length then
    match calculate_ioc column with
    | some i => (acc.1 + i, acc.2 + 1)
    | none => acc
  else acc

def column_ioc_stats (columns : List (List Char)) : ℚ × ℕ :=
  columns.foldl ioc_stats_step (0, 0)

/-- Search state of `_estimate_key_length`. -/
structure KeyLenSearch where
  best_length : ℕ
  best_score : WithTop ℚ
deriving DecidableEq, Repr

/-- One candidate length of `VigenereCipher._estimate_key_length`: average
the valid per-column IoCs and keep the length whose average is strictly
closest to 0.0667. -/
def estimate_step (text : List Char) (st : KeyLenSearch) (len : ℕ) : KeyLenSearch :=
  let stats := column_ioc_stats (splitColumns len text)
  if 0 < stats.2 then
    let avg_ioc := stats.1 / (stats.2 : ℚ)
    let score : ℚ := |avg_ioc - 667/10000|
    if (score : WithTop ℚ) < st.best_score then ⟨len, score⟩ else st
  else st

/-- `VigenereCipher._estimate_key_length` (with the default
`max_length = 20`): candidates are `range(1, min(20 + 1, len(text) // 2))`. -/
def estimate_key_length (text : List Char) : ℕ :=
  ((List.range' 1 (min 21 (text.length / 2) - 1)).foldl
    (estimate_step text) ⟨1, ⊤⟩).best_length

/-- `VigenereCipher.encrypt`: shift each alphabetic character by the next
key letter, preserving case and non-alphabetic characters; `none` models
the `InvalidKeyError` on an empty or non-alphabetic key. -/
def vigenere_encrypt (data : List Char) (key : List Char) : Option (List Char) :=
  if key.isEmpty || !(key.all isalpha) then none
  else
    let key_upper := key.map upperChar
    some (data.foldl
      (fun (acc : List Char × ℕ) c =>
        if isalpha c then
          let base := if 65 ≤ c.toNat && c.toNat ≤ 90 then 65 else 97
          let shift := (key_upper.getD (acc.2 % key_upper.length) 'A').toNat - 65
          (acc.1 ++ [Char.ofNat (base + (c.toNat - base + shift) % 26)], acc.2 + 1)
        else (acc.1 ++ [c], acc.2))
      ([], 0)).1

/-- `VigenereCipher.decrypt`: encrypt with the inverse key
`(26 - shift) % 26` letter by letter. -/
def vigenere_decrypt (data : List Char) (key : List Char) : Option (List Char) :=
  let inverse_key := (key.filter isalpha).map
    (fun c => Char.ofNat ((26 - ((upperChar c).toNat - 65)) % 26 + 65))
  vigenere_encrypt data inverse_key

/-- `VigenereCipher._score_text` is the same computation as
`CaesarCipher._score_text` (only the order of `upper`/`isalpha` in the
counting loop differs, which is immaterial in the ASCII model). -/
def vig_score_text (text : List Char) : WithTop ℚ :=
  caesar_score_text text

/-- The per-column Caesar solve of `VigenereCipher.crack` step 3: try all
26 shifts on the column, score by chi-squared, keep the strict minimum. -/
def vig_solve_column (column : List Char) : ℕ × WithTop ℚ :=
  (List.range 26).foldl
    (fun (best : ℕ × WithTop ℚ) (shift : ℕ) =>
      let decrypted := column.map
        (fun c => Char.ofNat ((((c.toNat : ℤ) - 65 - (shift : ℤ)) % 26 + 65).toNat))
      let score := vig_score_text decrypted
      if score < best.2 then (shift, score) else best)
    (0, ⊤)

/-- Result record of `VigenereCipher.crack`. -/
structure VigenereResult where
  success : Bool
  key : Option (List Char)
  plaintext : Option (List Char)
  confidence : ℚ
  method : String
  attempts : ℕ
  key_length : Option ℕ
  error : Option String
deriving DecidableEq, Repr

/-- `VigenereCipher.crack`; `none` models the `CrackingError` raised when
the final decryption with the recovered key fails. -/
def vigenere_crack (data : List Char) : Option VigenereResult :=
  let filtered := (data.filter isalpha).map upperChar
  if filtered.length < 20 then
    some { success := false, key := none, plaintext := none, confidence := 0,
           method := "friedman_test", attempts := 0, key_length := none,
           error := some "Text too short for reliable analysis (minimum 20 letters)" }
  else
    let key_length := estimate_key_length filtered
    if key_length = 1 then
      some { success := false, key := none, plaintext := none, confidence := 0,
             method := "friedman_test", attempts := 0, key_length := none,
             error := some "Detected as monoalphabetic cipher, use Caesar instead" }
    else
      let columns := splitColumns key_length filtered
      let solved := columns.map
        (fun column =>
          if column.isEmpty then ('A', (0 : ℚ))
          else
            let best := vig_solve_column column
            (Char.ofNat (best.1 + 65), conf500 best.2))
      let key := solved.map Prod.fst
      let total_confidence := (solved.map Prod.snd).sum
      match vigenere_decrypt data key with
      | none => none
      | some plaintext =>
        let avg_confidence :=
          if solved.isEmpty then 0 else total_confidence / (solved.length : ℚ)
        some { success := true, key := some key, plaintext := some plaintext,
               confidence := roundDec 4 avg_confidence,
               method := "friedman_test", attempts := key_length * 26,
               key_length := some key_length, error := none }

/-- Following the words of the spec's key-length-estimation description:
the score of candidate length `L` is the absolute distance from 0.0667 of
the average IoC over the columns with at least 2 characters. -/
def friedman_spec_score (text : List Char) (L : ℕ) : ℚ :=
  let iocs := ((splitColumns L text).filter
    (fun c => 2 ≤ c.length)).filterMap calculate_ioc
  |iocs.sum / (iocs.length : ℚ) - 667/10000|

/-- First index attaining the minimal score (ties keep the earlier entry),
starting from a current best pair. -/
def first_argmin : ℕ × ℚ → List (ℕ × ℚ) → ℕ
  | best, [] => best.1
  | best, p :: ps => if p.2 < best.2 then first_argmin p ps else first_argmin best ps

/-- Following the words of the spec: test every candidate length from 1 up
to and including `ub`, score each with `friedman_spec_score`, and select
the first minimum. -/
def friedman_spec_select (ub : ℕ) (text : List Char) : ℕ :=
  match (List.range' 1 ub).map (fun L => (L, friedman_spec_score text L)) with
  | [] => 1
  | p :: ps => first_argmin p ps

/-! ## Substitution cipher (`crypto_sentinel.ciphers.substitution`) -/

/-- `SubstitutionCipher.ALPHABET` (`string.ascii_uppercase`). -/
def ALPHABET : List Char := "ABCDEFGHIJKLMNOPQRSTUVWXYZ".toList

/-- `SubstitutionCipher.TRIGRAMS` (the entry `'WITH'` has four letters in
the source and therefore never matches a three-character window). -/
def TRIGRAMS : List (List Char × ℚ) :=
  [("THE", 181/100), ("AND", 73/100), ("ING", 72/100), ("HER", 36/100),
   ("HAT", 35/100), ("HIS", 34/100), ("THA", 33/100), ("ERE", 31/100),
   ("FOR", 29/100), ("ENT", 28/100), ("ION", 28/100), ("TER", 27/100),
   ("WAS", 26/100), ("YOU", 25/100), ("ITH", 24/100), ("VER", 24/100),
   ("ALL", 23/100), ("WITH", 23/100), ("THI", 22/100), ("TIO", 22/100),
   ("ARE", 21/100), ("HES", 21/100), ("NOT", 21/100), ("ONT", 20/100),
   ("MEN", 20/100), ("OUR", 19/100), ("HEN", 19/100), ("SHE", 18/100),
   ("BUT", 18/100), ("OME", 18/100), ("EVE", 17/100), ("WHI", 17/100),
   ("ONE", 17/100), ("OUL", 17/100), ("ECT", 17/100), ("HIM", 16/100),
   ("WOU", 16/100), ("SAN", 16/100), ("ILL", 16/100),
   ("ERS", 16/100)].map (fun p => (p.1.toList, p.2))

/-- `SubstitutionCipher.encrypt`: validate the key (26 characters, all in
A–Z after uppercasing, no duplicates) and translate A–Z/a–z through it;
`none` models the `InvalidKeyError`. -/
def subst_encrypt (data : List Char) (key : List Char) : Option (List Char) :=
  let key_upper := key.map upperChar
  if key_upper.length ≠ 26 then none
  else if !(key_upper.all (fun c => ALPHABET.contains c)) then none
  else if key_upper.dedup.length ≠ 26 then none
  else some (data.map (fun c =>
    if 65 ≤ c.toNat && c.toNat ≤ 90 then key_upper.getD (c.toNat - 65) c
    else if 97 ≤ c.toNat && c.toNat ≤ 122 then
      lowerChar (key_upper.getD (c.toNat - 97) c)
    else c))

/-- `SubstitutionCipher.decrypt`: build the inverse table
(`inverse_key[ord(char) - ord('A')] = ALPHABET[i]`, where a negative
Python index wraps from the end) and encrypt with it; `none` models any
exception escaping `decrypt`. -/
def subst_decrypt (data : List Char) (key : List Char) : Option (List Char) :=
  let key_upper := key.map upperChar
  let build := key_upper.enum.foldl
    (fun (acc : Option (List (Option Char))) p =>
      match acc with
      | none => none
      | some inv =>
        if 26 ≤ p.1 then none
        else
          let idx : ℤ := (p.2.toNat : ℤ) - 65
          let j : ℤ := if idx < 0 then idx + 26 else idx
          if 0 ≤ j ∧ j < 26 then
            some (inv.set j.toNat (some (ALPHABET.getD p.1 'A')))
          else none)
    (some (List.replicate 26 (none : Option Char)))
  match build with
  | none => none
  | some inv => subst_encrypt data (inv.filterMap id)

/-- `SubstitutionCipher._score_trigrams`: sum the table weights of every
three-character window of the filtered text, normalised per window and
rescaled by 100. -/
def score_trigrams (text : List Char) : ℚ :=
  if text.isEmpty || text.length < 3 then 0
  else
    let filtered := (text.map upperChar).filter isalpha
    if filtered.length < 3 then 0
    else
      let score : ℚ := ((List.range (filtered.length - 2)).map
        (fun i =>
          match TRIGRAMS.lookup ((filtered.drop i).take 3) with
          | some w => w
          | none => 0)).sum
      let num_trigrams := filtered.length - 2
      if 0 < num_trigrams then score / (num_trigrams : ℚ) * 100 else score

/-- The simultaneous swap
`key_list[pos1], key_list[pos2] = key_list[pos2], key_list[pos1]`. -/
def list_swap (l : List Char) (i j : ℕ) : List Char :=
  match l.get? i, l.get? j with
  | some a, some b => (l.set i b).set j a
  | _, _ => l

/-- Search state of the `SubstitutionCipher.crack` hill climb. -/
structure SubstSearch where
  current_key : List Char
  current_score : ℚ
  best_key : List Char
  best_score : ℚ
  attempts : ℕ
  no_improvement_count : ℕ
deriving DecidableEq, Repr

/-- One iteration of the hill climb: swap the two sampled positions, score
the candidate (a scoring exception skips the iteration entirely,
`attempts` and the stall counter untouched), accept strictly better
candidates, track the best, and restart from the best after more than 100
consecutive non-improvements. -/
def subst_crack_step (data : List Char) (swaps : ℕ → Fin 26 × Fin 26)
    (st : SubstSearch) (iteration : ℕ) : SubstSearch :=
  let ps := swaps iteration
  let new_key := list_swap st.current_key ps.1.val ps.2.val
  match subst_decrypt data new_key with
  | none => st
  | some decrypted =>
    let new_score := score_trigrams decrypted
    let st1 : SubstSearch := { st with attempts := st.attempts + 1 }
    let st2 : SubstSearch :=
      if new_score > st1.current_score then
        let acc : SubstSearch :=
          { st1 with current_key := new_key, current_score := new_score,
                     no_improvement_count := 0 }
        if new_score > acc.best_score then
          { acc with best_key := new_key, best_score := new_score }
        else acc
      else { st1 with no_improvement_count := st1.no_improvement_count + 1 }
    if st2.no_improvement_count > 100 then
      { st2 with current_key := st2.best_key, current_score := st2.best_score,
                 no_improvement_count := 0 }
    else st2

/-- Result record of `SubstitutionCipher.crack`. -/
structure SubstResult where
  success : Bool
  key : Option (List Char)
  plaintext : Option (List Char)
  confidence : ℚ
  method : String
  attempts : ℕ
  best_score : Option ℚ
  iterations : Option ℕ
  error : Option String
deriving DecidableEq, Repr

/-- The tail of `SubstitutionCipher.crack` after the hill-climb loop:
decrypt with the best key found (an exception here escapes as
`CrackingError`, modelled `none`) and assemble the result dict. -/
def subst_finalize (data : List Char) (final : SubstSearch) : Option SubstResult :=
  match subst_decrypt data final.best_key with
  | none => none
  | some plaintext =>
    let confidence := min 1 (max 0 (final.best_score / 200))
    some { success := decide (confidence > 3/10), key := some final.best_key,
           plaintext := some plaintext, confidence := roundDec 4 confidence,
           method := "hill_climbing", attempts := final.attempts,
           best_score := some (roundDec 4 final.best_score),
           iterations := some 2000, error := none }

/-- `SubstitutionCipher.crack`.  The randomness is passed in explicitly:
`init_key` stands for the `random.shuffle`d alphabet (its only guarantee
is being a permutation of `ALPHABET`), and `swaps n` for the two distinct
positions `random.sample(range(26), 2)` draws at iteration `n` (the model
does not need their distinctness).  `none` models the `CrackingError`
into which any exception escaping the search is converted. -/
def subst_crack (data : List Char) (init_key : List Char)
    (swaps : ℕ → Fin 26 × Fin 26) : Option SubstResult :=
  let filtered := (data.filter isalpha).map upperChar
  if filtered.length < 50 then
    some { success := false, key := none, plaintext := none, confidence := 0,
           method := "hill_climbing", attempts := 0, best_score := none,
           iterations := none,
           error := some "Text too short for reliable analysis (minimum 50 letters)" }
  else
    match subst_decrypt data init_key with
    | none => none
    | some d0 =>
      let s0 := score_trigrams d0
      subst_finalize data ((List.range 2000).foldl (subst_crack_step data swaps)
        ⟨init_key, s0, init_key, s0, 0, 0⟩)

/-! ## Helper lemmas -/

lemma floor_half_eq_zero : ⌊(1 / 2 : ℚ)⌋ = 0 :=
  Int.floor_eq_zero_iff.2 (by constructor <;> norm_num)

lemma roundDec_zero (d : ℕ) : roundDec d 0 = 0 := by
  unfold roundDec
  rw [zero_mul, zero_add, floor_half_eq_zero]
  simp

lemma roundDec_nonneg (d : ℕ) {q : ℚ} (h : 0 ≤ q) : 0 ≤ roundDec d q := by
  unfold roundDec
  apply div_nonneg _ (by positivity)
  have h2 : (0 : ℤ) ≤ ⌊q * 10 ^ d + 1 / 2⌋ := Int.le_floor.2 (by positivity)
  exact_mod_cast h2

lemma roundDec_le_one (d : ℕ) {q : ℚ} (h : q ≤ 1) : roundDec d q ≤ 1 := by
  unfold roundDec
  rw [div_le_one (by positivity)]
  have h1 : q * 10 ^ d + 1 / 2 ≤ ((10 ^ d : ℤ) : ℚ) + 1 / 2 := by
    push_cast
    have : q * 10 ^ d ≤ 1 * 10 ^ d := by
      apply mul_le_mul_of_nonneg_right h (by positivity)
    linarith
  have h2 : ⌊q * 10 ^ d + 1 / 2⌋ ≤ (10 ^ d : ℤ) := by
    calc ⌊q * 10 ^ d + 1 / 2⌋ ≤ ⌊((10 ^ d : ℤ) : ℚ) + 1 / 2⌋ := Int.floor_le_floor h1
    _ = 10 ^ d + ⌊(1 / 2 : ℚ)⌋ := Int.floor_int_add _ _
    _ = 10 ^ d := by rw [floor_half_eq_zero, add_zero]
  calc ((⌊q * 10 ^ d + 1 / 2⌋ : ℤ) : ℚ) ≤ ((10 ^ d : ℤ) : ℚ) := by exact_mod_cast h2
  _ = 10 ^ d := by push_cast; ring

lemma sum_mul_pred_le (L : List ℕ) :
    (L.map fun c => c * (c - 1)).sum ≤ L.sum * (L.sum - 1) := by
  induction L with
  | nil => simp
  | cons a t ih =>
    simp only [List.map_cons, List.sum_cons]
    have key : a * (a - 1) + t.sum * (t.sum - 1) ≤ (a + t.sum) * (a + t.sum - 1) := by
      rcases Nat.eq_zero_or_pos a with ha | ha
      · subst ha; simp
      rcases Nat.eq_zero_or_pos t.sum with hs | hs
      · rw [hs]; simp
      obtain ⟨x, rfl⟩ : ∃ x, a = x + 1 := ⟨a - 1, by omega⟩
      obtain ⟨y, hy⟩ : ∃ y, t.sum = y + 1 := ⟨t.sum - 1, by omega⟩
      rw [hy]
      simp only [Nat.add_sub_cancel]
      have : x + 1 + (y + 1) - 1 = x + y + 1 := by omega
      rw [this]
      nlinarith
    calc a * (a - 1) + (t.map fun c => c * (c - 1)).sum
        ≤ a * (a - 1) + t.sum * (t.sum - 1) := by omega
      _ ≤ (a + t.sum) * (a + t.sum - 1) := key

/-- The IoC numerator is at most the denominator. -/
lemma ioc_numerator_le (l : List Char) :
    (l.dedup.map (fun c => l.count c * (l.count c - 1))).sum ≤
      l.length * (l.length - 1) := by
  have h1 : (l.dedup.map (fun c => l.count c * (l.count c - 1))).sum =
      ((l.dedup.map fun c => l.count c).map fun n => n * (n - 1)).sum := by
    rw [List.map_map]
    rfl
  rw [h1, ← List.sum_map_count_dedup_eq_length l]
  exact sum_mul_pred_le _

/-! ## Claim C3 -/

/-- Claim C3 counterexample: `calculate_ioc("ABCDEFGHIJKLMNOPQRSTUVWXYZ")`
returns exactly `0.0` (every letter occurs once, so the numerator
`Σ nᵢ(nᵢ-1)` vanishes), which is not strictly between 0.035 and 0.042. -/
theorem C3_ioc_values_counterexample :
    calculate_ioc "ABCDEFGHIJKLMNOPQRSTUVWXYZ".toList = some 0 ∧
    ¬((7 / 200 : ℚ) < 0 ∧ (0 : ℚ) < 21 / 500) := by
  constructor
  · decide
  · intro ⟨h, _⟩
    norm_num at h

/-- Claim C3 amended: `calculate_ioc("ABCDEFGHIJKLMNOPQRSTUVWXYZ") = 0.0`
(each letter occurs exactly once); `calculate_ioc("AAAAABBBBBCCCCC")`
returns `0.285714 > 0.15`; and `calculate_ioc` is case-insensitive on
`"HELLO"`/`"hello"`. -/
theorem C3_ioc_values_amended :
    calculate_ioc "ABCDEFGHIJKLMNOPQRSTUVWXYZ".toList = some 0 ∧
    calculate_ioc "AAAAABBBBBCCCCC".toList = some (142857 / 500000) ∧
    (3 / 20 : ℚ) < 142857 / 500000 ∧
    calculate_ioc "HELLO".toList = calculate_ioc "hello".toList := by
  refine ⟨by decide, by decide, by norm_num, by decide⟩

/-! ## Claim C4 -/

lemma zip_self_term_sum (O : List ℤ) :
    ((O.zip (O.map (fun i : ℤ => (i : ℚ)))).map
      (fun p => ((p.1 : ℚ) - p.2) ^ 2 / p.2)).sum = 0 := by
  induction O with
  | nil => simp
  | cons a t ih =>
    simp only [List.map_cons, List.zip_cons_cons, List.sum_cons, ih]
    norm_num

/-- Claim C4 counterexample: for the observed vector `[0]` (whose float
image is `[0.0]`), `chi_squared` raises `InvalidInput` (the zero-expected
guard) instead of returning `0.0`. -/
theorem C4_chi_squared_counterexample :
    ¬(chi_squared [(0 : ℤ)] ([(0 : ℤ)].map (fun i : ℤ => (i : ℚ))) = some 0) := by
  decide

/-- Claim C4 amended: `chi_squared(O, O_as_float) = 0.0` for every observed
vector whose float image contains no zero; and `chi_squared` fails with
`InvalidInput` exactly when the vectors differ in length or the expected
vector contains a zero. -/
theorem C4_chi_squared_amended :
    (∀ observed : List ℤ, (0 : ℚ) ∉ observed.map (fun i : ℤ => (i : ℚ)) →
      chi_squared observed (observed.map (fun i : ℤ => (i : ℚ))) = some 0) ∧
    (∀ (observed : List ℤ) (expected : List ℚ),
      chi_squared observed expected = none ↔
        observed.length ≠ expected.length ∨ (0 : ℚ) ∈ expected) := by
  constructor
  · intro O h0
    unfold chi_squared
    have hany : ¬((O.map (fun i : ℤ => (i : ℚ))).any (fun e => decide (e = 0)) = true) := by
      intro hany
      obtain ⟨e, he, hz⟩ := List.any_eq_true.1 hany
      exact h0 ((of_decide_eq_true hz) ▸ he)
    rw [if_neg (fun h => h (List.length_map _ _).symm), if_neg hany,
      zip_self_term_sum, roundDec_zero]
  · intro O E
    unfold chi_squared
    by_cases h1 : O.length ≠ E.length
    · simp [h1]
    · rw [if_neg h1]
      by_cases h2 : E.any (fun e => decide (e = 0)) = true
      · simp only [h2, if_true, true_iff]
        right
        obtain ⟨e, he, hz⟩ := List.any_eq_true.1 h2
        exact (of_decide_eq_true hz) ▸ he
      · simp only [Bool.not_eq_true] at h2
        rw [if_neg (fun h => Bool.false_ne_true (h2 ▸ h))]
        apply iff_of_false (Option.some_ne_none _)
        rintro (hL | hz)
        · exact h1 hL
        · have : E.any (fun e => decide (e = 0)) = true :=
            List.any_eq_true.2 ⟨(0 : ℚ), hz, by decide⟩
          rw [h2] at this
          exact Bool.false_ne_true this

/-- Witness for the amended C4 at the concrete observed vector
`[10, 15, 12]`. -/
theorem C4_chi_squared_amended_witness :
    ((0 : ℚ) ∉ ([10, 15, 12] : List ℤ).map (fun i : ℤ => (i : ℚ))) ∧
    chi_squared [10, 15, 12] (([10, 15, 12] : List ℤ).map (fun i : ℤ => (i : ℚ))) = some 0 :=
  ⟨by decide, C4_chi_squared_amended.1 [10, 15, 12] (by decide)⟩

/-! ## Claim C10 -/

/-- Claim C10: on any input with at least 2 alphabetic characters,
`calculate_ioc` succeeds and returns a value in `[0, 1]`, because the
numerator `Σ nᵢ(nᵢ-1)` never exceeds the denominator `N(N-1)`. -/
theorem C10_ioc_in_unit_interval (text : List Char)
    (h : 2 ≤ (text.filter isalpha).length) :
    ∃ q, calculate_ioc text = some q ∧ 0 ≤ q ∧ q ≤ 1 := by
  unfold calculate_ioc
  have hlen : ((text.filter isalpha).map upperChar).length =
      (text.filter isalpha).length := List.length_map _ _
  rw [if_neg (by omega)]
  set l := (text.filter isalpha).map upperChar with hl
  have hn : 2 ≤ l.length := by omega
  refine ⟨_, rfl, ?_, ?_⟩
  · exact roundDec_nonneg _ (by positivity)
  · apply roundDec_le_one
    have hd : (0 : ℚ) < ((l.length * (l.length - 1) : ℕ) : ℚ) := by
      have : 0 < l.length * (l.length - 1) := Nat.mul_pos (by omega) (by omega)
      exact_mod_cast this
    rw [div_le_one hd]
    exact_mod_cast ioc_numerator_le l

/-- Witness for C10 at the concrete input `"HELLO"`. -/
theorem C10_ioc_in_unit_interval_witness :
    2 ≤ ("HELLO".toList.filter isalpha).length ∧
    ∃ q, calculate_ioc "HELLO".toList = some q ∧ 0 ≤ q ∧ q ≤ 1 :=
  ⟨by decide, C10_ioc_in_unit_interval _ (by decide)⟩

/-! ## Claim C5 -/

/-- Claim C5: cracking the Caesar encryption of
`"THE QUICK BROWN FOX JUMPS OVER THE LAZY DOG"` under shift 7 recovers
`key = 7` and the original plaintext, with confidence above 0.5. -/
theorem C5_caesar_pangram_crack :
    caesar_encrypt "THE QUICK BROWN FOX JUMPS OVER THE LAZY DOG".toList 7 =
      some "AOL XBPJR IYVDU MVE QBTWZ VCLY AOL SHGF KVN".toList ∧
    (caesar_crack "AOL XBPJR IYVDU MVE QBTWZ VCLY AOL SHGF KVN".toList).key = some 7 ∧
    (caesar_crack "AOL XBPJR IYVDU MVE QBTWZ VCLY AOL SHGF KVN".toList).plaintext =
      some "THE QUICK BROWN FOX JUMPS OVER THE LAZY DOG".toList ∧
    1 / 2 <
      (caesar_crack "AOL XBPJR IYVDU MVE QBTWZ VCLY AOL SHGF KVN".toList).confidence :=
  ⟨by decide, by decide, by decide, by decide⟩

/-! ## Claim C6 -/

/-- Claim C6: the Caesar cracker returns immediately (success `false`,
zero attempts, empty score table) when the input has no alphabetic
character — the empty string included — and otherwise always reports
`success = true` with `attempts = 26`. -/
theorem C6_caesar_no_alpha_guard (data : List Char) :
    (data.any isalpha = false →
      caesar_crack data =
        { success := false, key := none, plaintext := none, confidence := 0,
          method := "frequency_analysis", attempts := 0, scores := [],
          best_chi_squared := none,
          error := some "No alphabetic characters to analyze" }) ∧
    (data.any isalpha = true →
      (caesar_crack data).success = true ∧ (caesar_crack data).attempts = 26) := by
  constructor
  · intro h
    unfold caesar_crack
    rw [if_pos (by simp [h])]
  · intro h
    have hne : data.isEmpty = false := by
      cases data with
      | nil => simp at h
      | cons a t => rfl
    unfold caesar_crack
    rw [if_neg (by simp [h, hne])]
    exact ⟨rfl, rfl⟩

/-- Witness for C6: the all-digit input `"1234"` short-circuits, the
alphabetic input `"AB"` searches all 26 shifts. -/
theorem C6_caesar_no_alpha_guard_witness :
    ("1234".toList.any isalpha = false) ∧
    caesar_crack "1234".toList =
      { success := false, key := none, plaintext := none, confidence := 0,
        method := "frequency_analysis", attempts := 0, scores := [],
        best_chi_squared := none,
        error := some "No alphabetic characters to analyze" } ∧
    ("AB".toList.any isalpha = true) ∧
    (caesar_crack "AB".toList).success = true ∧
    (caesar_crack "AB".toList).attempts = 26 :=
  ⟨by decide, (C6_caesar_no_alpha_guard _).1 (by decide), by decide,
   ((C6_caesar_no_alpha_guard _).2 (by decide)).1,
   ((C6_caesar_no_alpha_guard _).2 (by decide)).2⟩

/-! ## Claim C7 -/

lemma xor_step_scores_length (data : List ℕ) (st : XorSearch) (k : ℕ) :
    (xor_crack_step data st k).scores.length = st.scores.length + 1 := by
  unfold xor_crack_step
  dsimp only
  split
  · simp
  · simp

lemma xor_fold_scores_length (data : List ℕ) (l : List ℕ) (st : XorSearch) :
    (l.foldl (xor_crack_step data) st).scores.length = st.scores.length + l.length := by
  induction l generalizing st with
  | nil => simp
  | cons k t ih =>
    simp only [List.foldl_cons, List.length_cons]
    rw [ih, xor_step_scores_length]
    omega

lemma xor_step_plaintext_isSome (data : List ℕ) (st : XorSearch) (k : ℕ)
    (h : -1 < st.best_score → st.best_plaintext.isSome = true) :
    -1 < (xor_crack_step data st k).best_score →
      (xor_crack_step data st k).best_plaintext.isSome = true := by
  unfold xor_crack_step
  dsimp only
  split
  · intro _
    rfl
  · exact h

lemma xor_fold_plaintext_isSome (data : List ℕ) (l : List ℕ) (st : XorSearch)
    (h : -1 < st.best_score → st.best_plaintext.isSome = true) :
    -1 < (l.foldl (xor_crack_step data) st).best_score →
      (l.foldl (xor_crack_step data) st).best_plaintext.isSome = true := by
  induction l generalizing st with
  | nil => exact h
  | cons k t ih =>
    simp only [List.foldl_cons]
    exact ih _ (xor_step_plaintext_isSome data st k h)

/-- Claim C7: on empty byte input the XOR cracker returns immediately with
`success = false` and zero attempts; on non-empty input it reports
`success ↔ best_score > 0`,
`confidence = round₄(min(1, best_score/100))` for positive best score and
`0` otherwise, `attempts = 256`, and a 256-entry score table. -/
theorem C7_xor_crack_shape :
    (xor_crack [] =
      { success := false, key := none, plaintext := none, confidence := 0,
        method := "single_byte_brute_force", attempts := 0, scores := [],
        best_score := none, error := some "Empty data" }) ∧
    ∀ data : List ℕ, data ≠ [] →
      ∃ bs, (xor_crack data).best_score = some bs ∧
        ((xor_crack data).success = true ↔ 0 < bs) ∧
        (xor_crack data).confidence =
          roundDec 4 (if 0 < bs then min 1 (bs / 100) else 0) ∧
        (xor_crack data).attempts = 256 ∧
        (xor_crack data).scores.length = 256 := by
  constructor
  · rfl
  · intro data hne
    have hne' : data.isEmpty = false := by
      cases data with
      | nil => exact absurd rfl hne
      | cons a t => rfl
    unfold xor_crack
    rw [if_neg (by simp [hne'])]
    dsimp only
    refine ⟨_, rfl, decide_eq_true_iff, rfl, rfl, ?_⟩
    rw [xor_fold_scores_length data (List.range 256)]
    simp

/-- Witness for C7 at the concrete non-empty input `[0x62]`. -/
theorem C7_xor_crack_shape_witness :
    ([0x62] : List ℕ) ≠ [] ∧
    ∃ bs, (xor_crack [0x62]).best_score = some bs ∧
      ((xor_crack [0x62]).success = true ↔ 0 < bs) ∧
      (xor_crack [0x62]).confidence =
        roundDec 4 (if 0 < bs then min 1 (bs / 100) else 0) ∧
      (xor_crack [0x62]).attempts = 256 ∧
      (xor_crack [0x62]).scores.length = 256 :=
  ⟨by decide, C7_xor_crack_shape.2 [0x62] (by decide)⟩

/-! ## Claim C1 -/

lemma xor_step_stall (data : List ℕ) (st : XorSearch) (k : ℕ)
    (hd : utf8Decode (data.map (fun b => b ^^^ k)) = none)
    (hs : -1000 < st.best_score) :
    xor_crack_step data st k = { st with scores := st.scores ++ [(k, -1000)] } := by
  unfold xor_crack_step
  dsimp only
  rw [hd]
  dsimp only
  rw [if_neg (lt_asymm hs)]

lemma xor_fold_stall (data : List ℕ) :
    ∀ (l : List ℕ) (st : XorSearch),
      (∀ k ∈ l, utf8Decode (data.map (fun b => b ^^^ k)) = none) →
      -1000 < st.best_score →
      ∃ sc, l.foldl (xor_crack_step data) st = { st with scores := sc } := by
  intro l
  induction l with
  | nil =>
    intro st _ _
    exact ⟨st.scores, rfl⟩
  | cons k t ih =>
    intro st h hs
    simp only [List.foldl_cons]
    rw [xor_step_stall data st k (h k (by simp)) hs]
    obtain ⟨sc, hsc⟩ := ih { st with scores := st.scores ++ [(k, -1000)] }
      (fun k' hk' => h k' (by simp [hk'])) hs
    exact ⟨sc, hsc⟩

/-- Claim C1 counterexample: XOR-cracking the bytes `[0x00, 0x80]` — for
which no key produces valid UTF-8, so every score is `-1000` — returns
`success = false` but still carries `key = 0` (the Python dict always
includes `'key': best_key` on the non-empty path). -/
theorem C1_crackresult_counterexample :
    (xor_crack [0, 128]).success = false ∧
    (xor_crack [0, 128]).key = some 0 ∧
    (xor_crack [0, 128]).plaintext = none := by
  have hallb : ((List.range 256).all
      (fun k => (utf8Decode ([0, 128].map (fun b => b ^^^ k))).isNone)) = true := by
    decide
  have hall : ∀ k ∈ List.range 256,
      utf8Decode ([0, 128].map (fun b => b ^^^ k)) = none := by
    intro k hk
    have h := List.all_eq_true.1 hallb k hk
    exact Option.isNone_iff_eq_none.1 h
  obtain ⟨sc, hsc⟩ :=
    xor_fold_stall [0, 128] (List.range 256) ⟨0, none, -1, []⟩ hall (by norm_num)
  unfold xor_crack
  rw [if_neg (by decide)]
  dsimp only
  rw [hsc]
  dsimp only
  refine ⟨by decide, rfl, rfl⟩

lemma subst_finalize_fields (data : List Char) (F : SubstSearch) :
    ∀ r ∈ subst_finalize data F,
      r.key = some F.best_key ∧ r.plaintext.isSome = true := by
  intro r hr
  rw [Option.mem_def] at hr
  unfold subst_finalize at hr
  rcases hDP : subst_decrypt data F.best_key with _ | pt
  · rw [hDP] at hr
    exact Option.noConfusion hr
  · rw [hDP] at hr
    dsimp only at hr
    injection hr with hr
    subst hr
    exact ⟨rfl, rfl⟩

/-- Claim C1 amended: `success = true` always carries both a key and a
plaintext, and the early-exit failures (no alphabetic characters for
Caesar, empty input for XOR, fewer than 50 letters for Substitution) carry
neither; but the XOR cracker's post-search result carries a key even when
`success = false`, and the Substitution cracker's post-search result
carries both a key and a plaintext regardless of `success`. -/
theorem C1_crackresult_fields_amended :
    (∀ data : List Char,
      ((caesar_crack data).success = true →
        (caesar_crack data).key.isSome = true ∧
        (caesar_crack data).plaintext.isSome = true) ∧
      ((caesar_crack data).success = false →
        (caesar_crack data).key = none ∧ (caesar_crack data).plaintext = none)) ∧
    (∀ data : List ℕ,
      ((xor_crack data).success = true →
        (xor_crack data).key.isSome = true ∧
        (xor_crack data).plaintext.isSome = true) ∧
      (data = [] →
        (xor_crack data).success = false ∧
        (xor_crack data).key = none ∧ (xor_crack data).plaintext = none) ∧
      (data ≠ [] → (xor_crack data).key.isSome = true)) ∧
    (∀ (data init_key : List Char) (swaps : ℕ → Fin 26 × Fin 26),
      ∀ r ∈ subst_crack data init_key swaps,
        (r.success = true →
          r.key.isSome = true ∧ r.plaintext.isSome = true) ∧
        (((data.filter isalpha).map upperChar).length < 50 →
          r.success = false ∧ r.key = none ∧ r.plaintext = none) ∧
        (50 ≤ ((data.filter isalpha).map upperChar).length →
          r.key.isSome = true ∧ r.plaintext.isSome = true)) := by
  refine ⟨?_, ?_, ?_⟩
  · intro data
    unfold caesar_crack
    by_cases h : (data.isEmpty || !data.any isalpha) = true
    · rw [if_pos h]
      dsimp only
      constructor
      · intro hs
        exact nomatch hs
      · intro _
        exact ⟨rfl, rfl⟩
    · rw [if_neg h]
      dsimp only
      constructor
      · intro _
        exact ⟨rfl, rfl⟩
      · intro hs
        exact nomatch hs
  · intro data
    by_cases hd : data = []
    · subst hd
      refine ⟨?_, ?_, ?_⟩
      · intro hs
        exact nomatch hs
      · intro _
        exact ⟨rfl, rfl, rfl⟩
      · intro hne
        exact absurd rfl hne
    · have hne' : data.isEmpty = false := by
        cases data with
        | nil => exact absurd rfl hd
        | cons a t => rfl
      unfold xor_crack
      rw [if_neg (by simp [hne'])]
      dsimp only
      refine ⟨?_, fun h => absurd h hd, fun _ => rfl⟩
      intro hs
      refine ⟨rfl, ?_⟩
      have h0 := of_decide_eq_true hs
      exact xor_fold_plaintext_isSome data (List.range 256) ⟨0, none, -1, []⟩
        (fun contra => absurd contra (lt_irrefl _))
        (lt_trans (by norm_num) h0)
  · intro data init_key swaps r hr
    rw [Option.mem_def] at hr
    unfold subst_crack at hr
    by_cases h50 : ((data.filter isalpha).map upperChar).length < 50
    · rw [if_pos h50] at hr
      injection hr with hr
      subst hr
      refine ⟨?_, ?_, ?_⟩
      · intro hs
        exact nomatch hs
      · intro _
        exact ⟨rfl, rfl, rfl⟩
      · intro hge
        exact absurd hge (by omega)
    · rw [if_neg h50] at hr
      rcases hD0 : subst_decrypt data init_key with _ | d0
      · rw [hD0] at hr
        exact Option.noConfusion hr
      · rw [hD0] at hr
        dsimp only at hr
        have hf := subst_finalize_fields data _ r (Option.mem_def.mpr hr)
        refine ⟨?_, ?_, ?_⟩
        · intro _
          refine ⟨?_, hf.2⟩
          rw [hf.1]
          rfl
        · intro h
          exact absurd h h50
        · intro _
          refine ⟨?_, hf.2⟩
          rw [hf.1]
          rfl

/-- Witness for the amended C1: a successful Caesar crack carries key and
plaintext; the empty-input XOR failure carries neither; the short-input
Substitution failure carries neither. -/
theorem C1_crackresult_fields_amended_witness :
    ((caesar_crack "AB".toList).success = true) ∧
    ((caesar_crack "AB".toList).key.isSome = true ∧
      (caesar_crack "AB".toList).plaintext.isSome = true) ∧
    ((xor_crack ([] : List ℕ)).success = false ∧
      (xor_crack ([] : List ℕ)).key = none ∧
      (xor_crack ([] : List ℕ)).plaintext = none) ∧
    ((("AB".toList.filter isalpha).map upperChar).length < 50) ∧
    (∀ r ∈ subst_crack "AB".toList ALPHABET (fun _ => ((0 : Fin 26), (1 : Fin 26))),
      r.success = false ∧ r.key = none ∧ r.plaintext = none) :=
  ⟨by decide,
   (C1_crackresult_fields_amended.1 _).1 (by decide),
   (C1_crackresult_fields_amended.2.1 []).2.1 rfl,
   by decide,
   fun r hr => (C1_crackresult_fields_amended.2.2 _ _ _ r hr).2.1 (by decide)⟩

/-! ## Claim C9 -/

lemma get_set_cons_perm {α : Type} :
    ∀ (t : List α) (m : ℕ) (hm : m < t.length) (a : α),
      List.Perm (t.get ⟨m, hm⟩ :: t.set m a) (a :: t) := by
  intro t
  induction t with
  | nil => intro m hm a; exact absurd hm (by simp)
  | cons b t' ih =>
    intro m hm a
    match m with
    | 0 => exact List.Perm.swap a b t'
    | Nat.succ k =>
      have hk : k < t'.length := by simpa using hm
      refine List.Perm.trans (List.Perm.swap b (t'.get ⟨k, hk⟩) (t'.set k a)) ?_
      refine List.Perm.trans ((ih k hk a).cons b) ?_
      exact List.Perm.swap a b t'

lemma set_set_perm {α : Type} :
    ∀ (l : List α) (i j : ℕ) (hi : i < l.length) (hj : j < l.length),
      List.Perm ((l.set i (l.get ⟨j, hj⟩)).set j (l.get ⟨i, hi⟩)) l := by
  intro l
  induction l with
  | nil => intro i j hi _; exact absurd hi (by simp)
  | cons a t ih =>
    intro i j hi hj
    match i, j with
    | 0, 0 => simp
    | 0, Nat.succ m =>
      have hm : m < t.length := by simpa using hj
      show List.Perm (t.get ⟨m, hm⟩ :: t.set m a) (a :: t)
      exact get_set_cons_perm t m hm a
    | Nat.succ m, 0 =>
      have hm : m < t.length := by simpa using hi
      show List.Perm (t.get ⟨m, hm⟩ :: t.set m a) (a :: t)
      exact get_set_cons_perm t m hm a
    | Nat.succ m, Nat.succ k =>
      have hm : m < t.length := by simpa using hi
      have hk : k < t.length := by simpa using hj
      exact ((ih m k hm hk).cons a)

lemma list_swap_perm (l : List Char) (i j : ℕ) :
    List.Perm (list_swap l i j) l := by
  unfold list_swap
  rcases hi : l.get? i with _ | a
  · exact List.Perm.refl l
  · rcases hj : l.get? j with _ | b
    · exact List.Perm.refl l
    · dsimp only
      obtain ⟨hi', ha⟩ := List.get?_eq_some.1 hi
      obtain ⟨hj', hb⟩ := List.get?_eq_some.1 hj
      rw [← ha, ← hb]
      exact set_set_perm l i j hi' hj'

lemma subst_step_perm (data : List Char) (swaps : ℕ → Fin 26 × Fin 26)
    (st : SubstSearch) (i : ℕ)
    (h1 : List.Perm st.current_key ALPHABET)
    (h2 : List.Perm st.best_key ALPHABET) :
    List.Perm (subst_crack_step data swaps st i).current_key ALPHABET ∧
    List.Perm (subst_crack_step data swaps st i).best_key ALPHABET := by
  have hnew : List.Perm
      (list_swap st.current_key (swaps i).1.val (swaps i).2.val) ALPHABET :=
    (list_swap_perm _ _ _).trans h1
  unfold subst_crack_step
  dsimp only
  split
  · exact ⟨h1, h2⟩
  · split
    · split
      · split
        · exact ⟨hnew, hnew⟩
        · exact ⟨hnew, hnew⟩
      · split
        · exact ⟨h2, h2⟩
        · exact ⟨hnew, h2⟩
    · split
      · exact ⟨h2, h2⟩
      · exact ⟨h1, h2⟩

lemma subst_fold_perm (data : List Char) (swaps : ℕ → Fin 26 × Fin 26) :
    ∀ (l : List ℕ) (st : SubstSearch),
      List.Perm st.current_key ALPHABET →
      List.Perm st.best_key ALPHABET →
      List.Perm ((l.foldl (subst_crack_step data swaps) st).current_key) ALPHABET ∧
      List.Perm ((l.foldl (subst_crack_step data swaps) st).best_key) ALPHABET := by
  intro l
  induction l with
  | nil => intro st h1 h2; exact ⟨h1, h2⟩
  | cons i t ih =>
    intro st h1 h2
    simp only [List.foldl_cons]
    obtain ⟨h1', h2'⟩ := subst_step_perm data swaps st i h1 h2
    exact ih _ h1' h2'

/-- Claim C9: whenever the Substitution cracker's result carries a key,
that key is a permutation of the 26-letter uppercase alphabet — the
initial key is a shuffle of the alphabet and every candidate arises by
swapping two positions, which preserves the permutation property. -/
theorem C9_subst_key_is_permutation
    (data init_key : List Char) (swaps : ℕ → Fin 26 × Fin 26)
    (hperm : List.Perm init_key ALPHABET) :
    ∀ r ∈ subst_crack data init_key swaps, ∀ k ∈ r.key,
      k.length = 26 ∧ k.Nodup ∧ ∀ c ∈ k, c ∈ ALPHABET := by
  intro r hr k hk
  rw [Option.mem_def] at hr
  unfold subst_crack at hr
  by_cases h50 : ((data.filter isalpha).map upperChar).length < 50
  · rw [if_pos h50] at hr
    injection hr with hr
    subst hr
    exact absurd hk (by simp)
  · rw [if_neg h50] at hr
    rcases hD0 : subst_decrypt data init_key with _ | d0
    · rw [hD0] at hr
      exact Option.noConfusion hr
    · rw [hD0] at hr
      dsimp only at hr
      have hf := subst_finalize_fields data _ r (Option.mem_def.mpr hr)
      rw [Option.mem_def, hf.1] at hk
      injection hk with hk
      have hinv := (subst_fold_perm data swaps (List.range 2000)
        ⟨init_key, score_trigrams d0, init_key, score_trigrams d0, 0, 0⟩
        hperm hperm).2
      rw [hk] at hinv
      refine ⟨?_, ?_, ?_⟩
      · rw [hinv.length_eq]
        rfl
      · exact hinv.nodup_iff.2 (by decide)
      · intro c hc
        exact hinv.mem_iff.1 hc

/-- Witness for C9: the identity shuffle and a constant swap stream on a
50-letter input. -/
theorem C9_subst_key_is_permutation_witness :
    List.Perm ALPHABET ALPHABET ∧
    ∀ r ∈ subst_crack
        "THEQUICKBROWNFOXJUMPSOVERTHELAZYDOGTHEQUICKBROWNFO".toList
        ALPHABET (fun _ => ((0 : Fin 26), (1 : Fin 26))),
      ∀ k ∈ r.key, k.length = 26 ∧ k.Nodup ∧ ∀ c ∈ k, c ∈ ALPHABET :=
  ⟨List.Perm.refl _,
   C9_subst_key_is_permutation _ _ _ (List.Perm.refl _)⟩

/-! ## Claim C8 -/

/-- Claim C8: for every input whose filtered alphabetic text has at least
20 characters, if the estimated key length is 1 then `VigenereCipher.crack`
returns the fixed monoalphabetic-detection failure record (`success =
False`, no key, no plaintext, zero attempts, the "use Caesar instead"
error) instead of proceeding to the per-column solve. -/
theorem C8_vigenere_monoalphabetic_abort (data : List Char)
    (h20 : 20 ≤ ((data.filter isalpha).map upperChar).length)
    (h1 : estimate_key_length ((data.filter isalpha).map upperChar) = 1) :
    vigenere_crack data =
      some { success := false, key := none, plaintext := none, confidence := 0,
             method := "friedman_test", attempts := 0, key_length := none,
             error := some "Detected as monoalphabetic cipher, use Caesar instead" } := by
  unfold vigenere_crack
  dsimp only
  rw [if_neg (by omega), if_pos h1]

/-- Witness for C8: twenty distinct letters give per-column IoC 0 for every
candidate length, so no candidate beats the initial best length 1, the
estimate is 1, and the crack aborts with the monoalphabetic error. -/
theorem C8_vigenere_monoalphabetic_abort_witness :
    20 ≤ (("ABCDEFGHIJKLMNOPQRST".toList.filter isalpha).map upperChar).length ∧
    estimate_key_length
      (("ABCDEFGHIJKLMNOPQRST".toList.filter isalpha).map upperChar) = 1 ∧
    vigenere_crack "ABCDEFGHIJKLMNOPQRST".toList =
      some { success := false, key := none, plaintext := none, confidence := 0,
             method := "friedman_test", attempts := 0, key_length := none,
             error := some "Detected as monoalphabetic cipher, use Caesar instead" } :=
  ⟨by decide, by decide,
   C8_vigenere_monoalphabetic_abort _ (by decide) (by decide)⟩

/-! ## Claim C2 -/

theorem splitColumns_length (L : ℕ) (text : List Char) :
    (splitColumns L text).length = L := by
  simp [splitColumns]

theorem mem_splitColumns_shape {L : ℕ} {text : List Char} {col : List Char}
    (h : col ∈ splitColumns L text) :
    ∃ j, j < L ∧ col = (text.enum.filter (fun p => p.1 % L == j)).map Prod.snd := by
  unfold splitColumns at h
  obtain ⟨j, hj, h2⟩ := List.mem_map.1 h
  exact ⟨j, List.mem_range.1 hj, h2.symm⟩

theorem mem_splitColumns_subset {L : ℕ} {text : List Char} {col : List Char}
    (h : col ∈ splitColumns L text) : ∀ c ∈ col, c ∈ text := by
  intro c hc
  obtain ⟨j, _, rfl⟩ := mem_splitColumns_shape h
  obtain ⟨p, hp, rfl⟩ := List.mem_map.1 hc
  have hp' : p ∈ text.enum := List.mem_of_mem_filter hp
  have hmem : p.2 ∈ text.enum.map Prod.snd := List.mem_map_of_mem _ hp'
  rwa [List.enum_map_snd] at hmem

theorem column_length_ge_two (text : List Char) (L j : ℕ) (hj : j < L)
    (hN : 2 * L ≤ text.length) :
    2 ≤ ((text.enum.filter (fun p => p.1 % L == j)).map Prod.snd).length := by
  rw [List.length_map, ← List.countP_eq_length_filter]
  have hcp : List.countP (fun p => p.1 % L == j) text.enum
      = List.countP (fun i => i % L == j) (List.range text.length) := by
    rw [← List.enum_map_fst text, List.countP_map]
    rfl
  rw [hcp, List.countP_eq_length_filter]
  have hnd : (List.filter (fun i => i % L == j) (List.range text.length)).Nodup :=
    (List.nodup_range text.length).filter _
  have h1 : j ∈ List.filter (fun i => i % L == j) (List.range text.length) :=
    List.mem_filter.2 ⟨List.mem_range.2 (by omega), by simp [Nat.mod_eq_of_lt hj]⟩
  have h2 : j + L ∈ List.filter (fun i => i % L == j) (List.range text.length) :=
    List.mem_filter.2 ⟨List.mem_range.2 (by omega),
      by simp [Nat.add_mod_right, Nat.mod_eq_of_lt hj]⟩
  have hne : j ≠ j + L := by omega
  calc 2 = ({j, j + L} : Finset ℕ).card := (Finset.card_pair hne).symm
    _ ≤ (List.filter (fun i => i % L == j) (List.range text.length)).toFinset.card := by
        refine Finset.card_le_card ?_
        intro x hx
        rcases Finset.mem_insert.1 hx with rfl | hx
        · exact List.mem_toFinset.2 h1
        · rw [Finset.mem_singleton] at hx
          subst hx
          exact List.mem_toFinset.2 h2
    _ = (List.filter (fun i => i % L == j) (List.range text.length)).length :=
        List.toFinset_card_of_nodup hnd

theorem calculate_ioc_isSome {col : List Char}
    (hall : ∀ c ∈ col, isalpha c = true) (h2 : 2 ≤ col.length) :
    (calculate_ioc col).isSome := by
  unfold calculate_ioc
  dsimp only
  rw [List.filter_eq_self.2 hall]
  rw [if_neg (by rw [List.length_map]; omega)]
  rfl

theorem length_filterMap_of_isSome {α β : Type} (f : α → Option β) (l : List α)
    (h : ∀ a ∈ l, (f a).isSome) : (l.filterMap f).length = l.length := by
  induction l with
  | nil => rfl
  | cons a l ih =>
    obtain ⟨b, hb⟩ := Option.isSome_iff_exists.1 (h a (List.mem_cons_self a l))
    rw [List.filterMap_cons, hb, List.length_cons,
      ih (fun x hx => h x (List.mem_cons_of_mem a hx))]
    rfl

theorem ioc_stats_step_eq {col : List Char} {q : ℚ} (acc : ℚ × ℕ)
    (h2 : 2 ≤ col.length) (hq : calculate_ioc col = some q) :
    ioc_stats_step acc col = (acc.1 + q, acc.2 + 1) := by
  unfold ioc_stats_step
  rw [if_pos h2, hq]

theorem column_ioc_stats_fold (cols : List (List Char))
    (h : ∀ col ∈ cols, 2 ≤ col.length ∧ (calculate_ioc col).isSome) :
    ∀ acc : ℚ × ℕ,
      cols.foldl ioc_stats_step acc
      = (acc.1 + (cols.filterMap calculate_ioc).sum, acc.2 + cols.length) := by
  induction cols with
  | nil => intro acc; simp
  | cons col cols ih =>
    intro acc
    obtain ⟨h2, hs⟩ := h col (List.mem_cons_self col cols)
    obtain ⟨q, hq⟩ := Option.isSome_iff_exists.1 hs
    rw [List.foldl_cons, ioc_stats_step_eq acc h2 hq,
      ih (fun x hx => h x (List.mem_cons_of_mem col hx)) (acc.1 + q, acc.2 + 1)]
    rw [List.filterMap_cons, hq, List.sum_cons, List.length_cons]
    refine Prod.ext ?_ ?_
    · dsimp only; ring
    · dsimp only; omega

theorem estimate_step_eq (text : List Char) (L : ℕ) (hL : 1 ≤ L)
    (h : ∀ col ∈ splitColumns L text, 2 ≤ col.length ∧ (calculate_ioc col).isSome)
    (st : KeyLenSearch) :
    estimate_step text st L =
      if ((friedman_spec_score text L : ℚ) : WithTop ℚ) < st.best_score
      then ⟨L, friedman_spec_score text L⟩ else st := by
  have hclen : (splitColumns L text).length = L := splitColumns_length L text
  have hstats : column_ioc_stats (splitColumns L text)
      = (((splitColumns L text).filterMap calculate_ioc).sum, L) := by
    unfold column_ioc_stats
    rw [column_ioc_stats_fold _ h (0, 0)]
    rw [hclen]
    norm_num
  have hflen : ((splitColumns L text).filterMap calculate_ioc).length
      = (splitColumns L text).length :=
    length_filterMap_of_isSome _ _ (fun col hc => (h col hc).2)
  have hscore : friedman_spec_score text L
      = |((splitColumns L text).filterMap calculate_ioc).sum / (L : ℚ) - 667/10000| := by
    unfold friedman_spec_score
    rw [List.filter_eq_self.2 (fun col hc => decide_eq_true (h col hc).1)]
    dsimp only
    rw [hflen, hclen]
  unfold estimate_step
  rw [hstats]
  dsimp only
  rw [if_pos (by omega : 0 < L)]
  rw [hscore]

theorem fold_estimate_argmin (text : List Char) (ls : List ℕ)
    (h : ∀ L ∈ ls, 1 ≤ L ∧
      ∀ col ∈ splitColumns L text, 2 ≤ col.length ∧ (calculate_ioc col).isSome) :
    ∀ (b : ℕ) (s : ℚ),
      (ls.foldl (estimate_step text) ⟨b, (s : WithTop ℚ)⟩).best_length =
        first_argmin (b, s) (ls.map (fun L => (L, friedman_spec_score text L))) := by
  induction ls with
  | nil => intro b s; rfl
  | cons L ls ih =>
    intro b s
    obtain ⟨hL1, hcols⟩ := h L (List.mem_cons_self L ls)
    rw [List.foldl_cons, estimate_step_eq text L hL1 hcols, List.map_cons]
    simp only [first_argmin]
    by_cases hlt : friedman_spec_score text L < s
    · rw [if_pos (WithTop.coe_lt_coe.2 hlt), if_pos hlt]
      exact ih (fun x hx => h x (List.mem_cons_of_mem L hx)) L (friedman_spec_score text L)
    · rw [if_neg (fun hc => hlt (WithTop.coe_lt_coe.1 hc)), if_neg hlt]
      exact ih (fun x hx => h x (List.mem_cons_of_mem L hx)) b s

/-- Counterexample to claim C2: on the 20-letter alphabetic text
`ABCDEFGHIJAKLMNOPQRS` the code's estimate is 5, while testing every
candidate length up to and including `min(20, N // 2) = 10` (as the claim
states the range) selects 10: the code's `range(1, min(21, N // 2))`
stops one candidate short of the claimed upper bound. -/
theorem C2_keylength_range_counterexample :
    "ABCDEFGHIJAKLMNOPQRS".toList.all isalpha = true ∧
    "ABCDEFGHIJAKLMNOPQRS".toList.length = 20 ∧
    estimate_key_length "ABCDEFGHIJAKLMNOPQRS".toList = 5 ∧
    friedman_spec_select (min 20 ("ABCDEFGHIJAKLMNOPQRS".toList.length / 2))
      "ABCDEFGHIJAKLMNOPQRS".toList = 10 :=
  ⟨by decide, by decide, by decide, by decide⟩

/-- Claim C2 (amended): for an alphabetic text of length at least 20, the
key-length estimate tests every candidate length from 1 up to and
including `min(20, N // 2 - 1)` (not `min(20, N // 2)`), scores each by
the absolute distance from 0.0667 of the average column IoC, and selects
the minimum with ties to the first (smallest) length. -/
theorem C2_keylength_range_amended (text : List Char)
    (hall : text.all isalpha = true) (h20 : 20 ≤ text.length) :
    estimate_key_length text =
      friedman_spec_select (min 20 (text.length / 2 - 1)) text := by
  have hk : min 21 (text.length / 2) - 1 = min 20 (text.length / 2 - 1) := by omega
  have hgood : ∀ L, 1 ≤ L → L ≤ min 20 (text.length / 2 - 1) → 1 ≤ L ∧
      ∀ col ∈ splitColumns L text, 2 ≤ col.length ∧ (calculate_ioc col).isSome := by
    intro L hL1 hLk
    refine ⟨hL1, ?_⟩
    intro col hc
    obtain ⟨j, hj, hcol⟩ := mem_splitColumns_shape hc
    have hlen : 2 ≤ col.length := by
      rw [hcol]
      exact column_length_ge_two text L j hj (by omega)
    have halpha : ∀ c ∈ col, isalpha c = true := fun c hc' =>
      List.all_eq_true.1 hall c (mem_splitColumns_subset hc c hc')
    exact ⟨hlen, calculate_ioc_isSome halpha hlen⟩
  obtain ⟨k, hk2⟩ := Nat.exists_eq_succ_of_ne_zero
    (by omega : min 20 (text.length / 2 - 1) ≠ 0)
  unfold estimate_key_length friedman_spec_select
  rw [hk, hk2, List.range'_succ, List.foldl_cons, List.map_cons]
  have h1good := hgood 1 (le_refl 1) (by omega)
  rw [estimate_step_eq text 1 h1good.1 h1good.2]
  rw [if_pos (WithTop.coe_lt_top _)]
  rw [fold_estimate_argmin text (List.range' 2 k)
    (fun L hL => hgood L (by
        have := (List.mem_range'_1.1 hL).1
        omega)
      (by
        have := (List.mem_range'_1.1 hL).2
        omega))
    1 (friedman_spec_score text 1)]

/-- Witness for the amended C2 at the counterexample text: the code's
estimate over candidates 1–9 agrees with the spec-worded selection once
the upper bound is corrected to `min(20, N // 2 - 1)`. -/
theorem C2_keylength_range_amended_witness :
    "ABCDEFGHIJAKLMNOPQRS".toList.all isalpha = true ∧
    20 ≤ "ABCDEFGHIJAKLMNOPQRS".toList.length ∧
    estimate_key_length "ABCDEFGHIJAKLMNOPQRS".toList =
      friedman_spec_select (min 20 ("ABCDEFGHIJAKLMNOPQRS".toList.length / 2 - 1))
        "ABCDEFGHIJAKLMNOPQRS".toList :=
  ⟨by decide, by decide, C2_keylength_range_amended _ (by decide) (by decide)⟩

end CryptoSentinel
